import Mathlib

/-!
Verification development for the snapshot-cli project scanner
(`src/main.rs`).

Paths are embedded at the component level: a filesystem path is the list
of its components, each component a `String`.  Rust compares `PathBuf`s
component-wise, and `OsStr` components byte-wise; for valid UTF-8 the
byte order of two strings coincides with the order of their code-point
sequences, so a component is compared through `String.data`
(its list of characters).
-/

/-- File-type flag of a visited filesystem entry
(`entry.file_type()` in `run_scanner`). -/
inductive FType where
  | file : FType
  | dir : FType
  | other : FType
deriving DecidableEq

/-- A filesystem entry visited during the walk: its path (as components)
and its file type (`None` models `entry.file_type() == None`). -/
structure CandidateEntry where
  path : List String
  ftype : Option FType
deriving DecidableEq

/-- Rust `FileType::is_file`. -/
def FType.is_file : FType → Bool
  | FType.file => true
  | _ => false

/-- The predicate applied to each walk result in `run_scanner`:
`match entry.file_type() { Some(ft) => ft.is_file(), None => false }`. -/
def entryEmitted (e : CandidateEntry) : Bool :=
  match e.ftype with
  | some ft => ft.is_file
  | none => false

/-- Rust `PathBuf` ordering: paths compare component-wise
(`Path::cmp` compares `Components` lexicographically, each component by
its bytes).  Embedded as the lexicographic order on the lists of
character lists. -/
def pathLe (p q : List String) : Prop :=
  p.map String.data ≤ q.map String.data

instance : DecidableRel pathLe := fun p q =>
  inferInstanceAs (Decidable (p.map String.data ≤ q.map String.data))

instance : IsTotal (List String) pathLe :=
  ⟨fun p q => le_total (p.map String.data) (q.map String.data)⟩

instance : IsTrans (List String) pathLe :=
  ⟨fun _ _ _ h1 h2 => le_trans h1 h2⟩

theorem string_data_injective : Function.Injective String.data := by
  intro a b hab
  cases a
  cases b
  exact congrArg String.mk hab

instance : IsAntisymm (List String) pathLe := by
  constructor
  intro p q h1 h2
  exact List.map_injective_iff.mpr string_data_injective (le_antisymm h1 h2)

/-- `run_scanner`, given the entries the parallel walker hands to the
per-entry callback (`src/main.rs` lines 70-90): keep exactly the entries
whose file type is a regular file, collect their paths, and sort
(`collected_paths.sort()`, i.e. Rust `PathBuf` order). -/
def run_scanner (entries : List CandidateEntry) : List (List String) :=
  List.insertionSort pathLe ((entries.filter entryEmitted).map CandidateEntry.path)

/-- Full path string of a component path, as `Path::display` prints it
on Unix: components joined by `/`. -/
def displayPath (p : List String) : String :=
  String.intercalate "/" p

/-- A list of strings in lexicographic order of the full strings
(character-wise, which for UTF-8 equals byte-wise order). -/
def sortedByFullString (l : List String) : Prop :=
  List.Sorted (· ≤ ·) (l.map String.data)

instance (l : List String) : Decidable (sortedByFullString l) :=
  inferInstanceAs (Decidable (List.Sorted (· ≤ ·) (l.map String.data)))

/-- Modelled from the spec: the layered ignore-rule evaluation of the
walker lives in the external `ignore` crate; `run_scanner` only
configures it (`src/main.rs` lines 57-68).  A user rule chain is an
arbitrary function from a path to `some true` (ignored), `some false`
(re-included by a negation pattern) or `none` (no rule matches); the
hard-coded override `!.git/` excludes the version-control metadata
directory and everything beneath it at highest precedence, before any
user rule is consulted ("excluded unconditionally, irrespective of any
user rule, via a highest-precedence override that cannot be negated"). -/
def acceptEntry (userRule : List String → Option Bool) (e : CandidateEntry) : Bool :=
  if e.ftype = some FType.dir ∧ ".git" ∈ e.path then false
  else if ".git" ∈ e.path.dropLast then false
  else
    match userRule e.path with
    | some ignored => !ignored
    | none => true

/-- Modelled from the spec: the walker visits the filesystem entries and
hands the accepted ones to the collection callback of `run_scanner`. -/
def walkEmit (userRule : List String → Option Bool) (fs : List CandidateEntry) :
    List CandidateEntry :=
  fs.filter (acceptEntry userRule)

/-- The scan with rule evaluation: walker filtering composed with
`run_scanner`'s collection and sort. -/
def scanWith (userRule : List String → Option Bool) (fs : List CandidateEntry) :
    List (List String) :=
  run_scanner (walkEmit userRule fs)

/-- A node of the project directory tree (`enum TreeNode` in
`src/main.rs`).  The Rust `HashMap<String, TreeNode>` is embedded as an
association list with unique keys; `HashMap` iteration order is
irrelevant because the renderer sorts keys explicitly. -/
inductive TreeNode where
  | File : TreeNode
  | Directory : List (String × TreeNode) → TreeNode

/-- `HashMap::get`: the value stored under a key. -/
def getChild : List (String × TreeNode) → String → Option TreeNode
  | [], _ => none
  | (k, v) :: tl, name => if k = name then some v else getChild tl name

/-- `HashMap::insert`: replace the value under the key if present,
otherwise add the binding. -/
def mapInsert : List (String × TreeNode) → String → TreeNode → List (String × TreeNode)
  | [], k, v => [(k, v)]
  | (k0, v0) :: tl, k, v =>
    if k0 = k then (k, v) :: tl else (k0, v0) :: mapInsert tl k v

/-- `insert_path` (`src/main.rs` lines 123-137): recursively insert a
component path into the tree.  An empty component list is a no-op; a
`File` node swallows any insertion below it; the last component is
inserted as a `File` leaf, intermediate components walk or create
`Directory` nodes (`entry(..).or_insert(Directory(HashMap::new()))`). -/
def insert_path : TreeNode → List String → TreeNode
  | node, [] => node
  | TreeNode.File, _ :: _ => TreeNode.File
  | TreeNode.Directory children, [c] =>
    TreeNode.Directory (mapInsert children c TreeNode.File)
  | TreeNode.Directory children, c :: c2 :: rest =>
    let child := (getChild children c).getD (TreeNode.Directory [])
    TreeNode.Directory (mapInsert children c (insert_path child (c2 :: rest)))

/-- Walk a component path down a tree: the node reached by following the
segments from the given node, if every step exists. -/
def lookupNode : TreeNode → List String → Option TreeNode
  | t, [] => some t
  | TreeNode.File, _ :: _ => none
  | TreeNode.Directory children, c :: rest =>
    match getChild children c with
    | some t => lookupNode t rest
    | none => none

/-- The relative path computed for one scanned path in
`generate_project_tree`: `path.strip_prefix(base_path)` succeeds exactly
when the base is a leading run of components, otherwise the path itself
is used (`Err(_) => path.as_path()`). -/
def relComponents (base p : List String) : List String :=
  if base.isPrefixOf p then p.drop base.length else p

/-- The tree-building loop of `generate_project_tree`: fold the paths
into an initially empty root `Directory`. -/
def buildRoot (base : List String) (paths : List (List String)) : TreeNode :=
  paths.foldl (fun t p => insert_path t (relComponents base p)) (TreeNode.Directory [])

/-- Fold already-relative component paths into an empty root; the
builder underlying `buildRoot`. -/
def buildTreeSegs (segLists : List (List String)) : TreeNode :=
  segLists.foldl insert_path (TreeNode.Directory [])

theorem sizeOf_getChild {ch : List (String × TreeNode)} {name : String} {t : TreeNode}
    (h : getChild ch name = some t) : sizeOf t + 1 < sizeOf ch := by
  induction ch with
  | nil => simp [getChild] at h
  | cons hd tl ih =>
    obtain ⟨k, v⟩ := hd
    simp only [getChild] at h
    by_cases hk : k = name
    · simp only [if_pos hk, Option.some.injEq] at h
      subst h
      simp only [List.cons.sizeOf_spec, Prod.mk.sizeOf_spec]
      omega
    · simp only [if_neg hk] at h
      have := ih h
      simp only [List.cons.sizeOf_spec]
      omega

theorem one_le_sizeOf_list (l : List (String × TreeNode)) : 1 ≤ sizeOf l := by
  cases l with
  | nil => simp
  | cons hd tl => simp; omega

mutual
/-- `build_tree_string` (`src/main.rs` lines 174-199): render a node.  A
`File` contributes nothing; a `Directory` collects its keys, sorts them,
and renders each. -/
def build_tree_string : TreeNode → String → String
  | TreeNode.File, _ => ""
  | TreeNode.Directory children, pfx =>
    renderNames children (List.insertionSort (· ≤ ·) (children.map Prod.fst)) pfx
termination_by t _ => (sizeOf t, 0)
decreasing_by
  apply Prod.Lex.left
  simp
/-- The `for (i, name) in entries.iter().enumerate()` loop of
`build_tree_string`: the entry is last exactly when no entries remain;
emit the connector line, then the recursive rendering of a `Directory`
child under the extended indentation, then the remaining entries. -/
def renderNames : List (String × TreeNode) → List String → String → String
  | _, [], _ => ""
  | ch, name :: rest, pfx =>
    let is_last := rest.isEmpty
    let connector := if is_last then "└── " else "├── "
    let child_pfx := if is_last then "    " else "│   "
    let line := pfx ++ connector ++ name ++ "\n"
    line ++ renderChild (getChild ch name) (pfx ++ child_pfx) ++ renderNames ch rest pfx
termination_by ch names _ => (sizeOf ch, names.length + 1)
decreasing_by
  · rcases h : getChild ch name with _ | child
    · rcases Nat.lt_or_ge 1 (sizeOf ch) with h1 | h1
      · apply Prod.Lex.left
        simpa using h1
      · have h2 : sizeOf ch = 1 := le_antisymm h1 (one_le_sizeOf_list ch)
        have h3 : sizeOf (none : Option TreeNode) = 1 := by simp
        rw [h3, h2]
        apply Prod.Lex.right
        omega
    · apply Prod.Lex.left
      have := sizeOf_getChild h
      simp only [Option.some.sizeOf_spec]
      omega
  · apply Prod.Lex.right
    simp
/-- The `if let Some(child_node) = children.get(*name)` body of
`build_tree_string`: only a `Directory` child is recursed into. -/
def renderChild : Option TreeNode → String → String
  | some (TreeNode.Directory chc), pfx2 => build_tree_string (TreeNode.Directory chc) pfx2
  | _, _ => ""
termination_by c _ => (sizeOf c, 0)
decreasing_by
  apply Prod.Lex.left
  simp
end

/-- `generate_project_tree` (`src/main.rs` lines 160-202) restricted to
paths whose components are all valid UTF-8 (the `to_str().unwrap()`
conversion succeeds): build the tree of relative paths and prepend the
literal root line. -/
def generate_project_tree (base_path : List String) (paths : List (List String)) : String :=
  ".\n" ++ build_tree_string (buildRoot base_path paths) ""

/-- The characters after the last `.` of a file name's tail, if the tail
holds a dot (`rsplitn(2, '.')` from the right in Rust's
`rsplit_file_at_dot`). -/
def afterLastDot : List Char → Option (List Char)
  | [] => none
  | c :: cs =>
    match afterLastDot cs with
    | some r => some r
    | none => if c = '.' then some cs else none

/-- Rust `Path::extension` on the last component: `None` when there is
no component, for the special name `..`, when the name holds no `.`, or
when the only `.` is the leading one (hidden files such as
`.gitignore`); otherwise the part after the last `.`. -/
def pathExtension (p : List String) : Option String :=
  match p.getLast? with
  | none => none
  | some name =>
    if name = ".." then none
    else
      match name.data with
      | [] => none
      | _ :: rest =>
        match afterLastDot rest with
        | some r => some (String.mk r)
        | none => none

/-- One fenced block of the "File Contents" section
(`src/main.rs` lines 239-252): read the file, fall back to a literal
error message, and wrap in a fence annotated `{extension}:{relative
path}`.  The filesystem is a parameter `readFile` returning the file's
text or the read error's message. -/
def fileBlock (base : List String) (readFile : List String → Except String String)
    (p : List String) : String :=
  let relative_path := relComponents base p
  let content :=
    match readFile p with
    | Except.ok text => text
    | Except.error e => "Error reading file: " ++ e
  let lang := (pathExtension p).getD ""
  "```" ++ lang ++ ":" ++ displayPath relative_path ++ "\n" ++ content ++ "\n```\n\n"

/-- `generate_snapshot_content` (`src/main.rs` lines 226-264): header,
summary, file count, fenced project tree, section header, then the
fenced blocks of all files, concatenated. -/
def generate_snapshot_content (project_name : String) (base_path : List String)
    (paths : List (List String)) (readFile : List String → Except String String) : String :=
  let header := "# Project Snapshot: " ++ project_name ++ "\n\n"
  let summary :=
    "This file contains a snapshot of the project structure and source code, formatted for AI consumption.\n"
  let total_files := "Total files included: " ++ toString paths.length ++ "\n\n"
  let project_tree := "```\n" ++ generate_project_tree base_path paths ++ "\n```\n\n"
  let file_contents_header := "## File Contents\n\n"
  let file_contents := String.join (paths.map (fileBlock base_path readFile))
  String.join [header, summary, total_files, project_tree, file_contents_header, file_contents]

/-- The document part before the per-file blocks: title, summary
sentence, count line, fenced tree diagram and the section header.  It
does not depend on any file's contents. -/
def snapshotIntro (project_name : String) (base_path : List String)
    (paths : List (List String)) : String :=
  "# Project Snapshot: " ++ project_name ++ "\n\n" ++
    "This file contains a snapshot of the project structure and source code, formatted for AI consumption.\n" ++
    ("Total files included: " ++ toString paths.length ++ "\n\n") ++
    ("```\n" ++ generate_project_tree base_path paths ++ "\n```\n\n") ++
    "## File Contents\n\n"

/-- The fenced block emitted for a file whose read failed with message
`e`: the body is the literal error message. -/
def errorBlock (base : List String) (p : List String) (e : String) : String :=
  "```" ++ ((pathExtension p).getD "") ++ ":" ++ displayPath (relComponents base p) ++ "\n" ++
    ("Error reading file: " ++ e) ++ "\n```\n\n"

/-- Definition following the spec's words (section 4.6, Snapshot
Assembler): "Emits, in order: a title line naming the project; a fixed
summary sentence; a file count line; the tree diagram inside a fenced
block; a File Contents section header; then, for every path in
FilteredPathList in list order, a fenced block whose fence annotation is
`{extension}:{relative-path}` (extension empty string if the file has
none) and whose body is the file's full text content" (or the literal
read-error message). -/
def assembleSpec (projectName : String) (base_path : List String)
    (paths : List (List String)) (readFile : List String → Except String String) : String :=
  let titleLine := "# Project Snapshot: " ++ projectName ++ "\n\n"
  let summarySentence :=
    "This file contains a snapshot of the project structure and source code, formatted for AI consumption.\n"
  let fileCountLine := "Total files included: " ++ toString paths.length ++ "\n\n"
  let treeDiagram := "```\n" ++ generate_project_tree base_path paths ++ "\n```\n\n"
  let sectionHeader := "## File Contents\n\n"
  let fencedBlocks := paths.map (fun p =>
    let fenceAnnotation := ((pathExtension p).getD "") ++ ":" ++ displayPath (relComponents base_path p)
    let body :=
      match readFile p with
      | Except.ok text => text
      | Except.error e => "Error reading file: " ++ e
    "```" ++ fenceAnnotation ++ "\n" ++ body ++ "\n```\n\n")
  titleLine ++ summarySentence ++ fileCountLine ++ treeDiagram ++ sectionHeader ++
    String.join fencedBlocks

/-- Outcome of one invocation of the core pipeline in `main`
(`src/main.rs` lines 274-283): either the "no files" status message on
standard error, or the produced snapshot document. -/
inductive MainOutcome where
  | noFiles : String → MainOutcome
  | produced : String → MainOutcome
deriving DecidableEq

/-- The decision `main` takes after scanning: an empty path list
short-circuits with the status message and no document is produced;
otherwise the snapshot content is generated. -/
def mainPipeline (project_name : String) (base_path : List String)
    (entries : List CandidateEntry) (readFile : List String → Except String String) :
    MainOutcome :=
  let file_paths := run_scanner entries
  if file_paths.isEmpty then
    MainOutcome.noFiles "No files to include in the snapshot. Exiting."
  else
    MainOutcome.produced (generate_snapshot_content project_name base_path file_paths readFile)

/-- A component of an operating-system path: either valid UTF-8 or a raw
byte sequence that is not valid UTF-8. -/
inductive OsStr where
  | utf8 : String → OsStr
  | raw : List Nat → OsStr
deriving DecidableEq, BEq

/-- Rust `OsStr::to_str`: `Some` exactly for valid UTF-8. -/
def OsStr.toStr : OsStr → Option String
  | OsStr.utf8 s => some s
  | OsStr.raw _ => none

/-- `generate_project_tree` over operating-system paths, where the
`c.as_os_str().to_str().unwrap()` of a non-UTF-8 component panics:
the result is `none` exactly when some converted component panics. -/
def generate_project_tree_os (base_path : List OsStr) (paths : List (List OsStr)) :
    Option String := do
  let root ← paths.foldlM (fun t p => do
    let relative_path := if base_path.isPrefixOf p then p.drop base_path.length else p
    let components ← relative_path.mapM OsStr.toStr
    pure (insert_path t components)) (TreeNode.Directory [])
  pure (".\n" ++ build_tree_string root "")

theorem perm_sizeOf_eq {l₁ l₂ : List (String × TreeNode)} (h : l₁.Perm l₂) :
    sizeOf l₁ = sizeOf l₂ := by
  induction h with
  | nil => rfl
  | cons x _ ih => simp only [List.cons.sizeOf_spec]; omega
  | swap x y l => simp only [List.cons.sizeOf_spec]; omega
  | trans _ _ ih1 ih2 => exact ih1.trans ih2

theorem sizeOf_sortPairs (ch : List (String × TreeNode)) :
    sizeOf (List.insertionSort (fun a b : String × TreeNode => a.1 ≤ b.1) ch) = sizeOf ch :=
  perm_sizeOf_eq (List.perm_insertionSort (fun a b : String × TreeNode => a.1 ≤ b.1) ch)

mutual
/-- Definition following the spec's words (section 4.5, Tree Renderer):
at each Directory level list the children sorted by name; for each child
emit the connector, `├── ` for all but the last child, `└── ` for the
last; recurse into Directory children with the indentation extended by
`│   ` under a non-last branch and by `    ` under a last branch; File
children are leaves and do not recurse. -/
def renderSpec : TreeNode → String → String
  | TreeNode.File, _ => ""
  | TreeNode.Directory ch, pfx =>
    renderSpecList (List.insertionSort (fun a b : String × TreeNode => a.1 ≤ b.1) ch) pfx
termination_by t _ => (sizeOf t, 0)
decreasing_by
  apply Prod.Lex.left
  rw [sizeOf_sortPairs]
  simp
/-- The per-child emission of `renderSpec`, over the name-sorted
children: the last child gets `└── ` and indentation `    `, every
earlier child gets `├── ` and indentation `│   `. -/
def renderSpecList : List (String × TreeNode) → String → String
  | [], _ => ""
  | [(name, child)], pfx =>
    pfx ++ "└── " ++ name ++ "\n" ++ renderSpec child (pfx ++ "    ")
  | (name, child) :: kv :: rest, pfx =>
    pfx ++ "├── " ++ name ++ "\n" ++ renderSpec child (pfx ++ "│   ") ++
      renderSpecList (kv :: rest) pfx
termination_by l _ => (sizeOf l, 0)
decreasing_by
  all_goals apply Prod.Lex.left
  all_goals (simp <;> omega)
end

/-- Well-formedness of an embedded tree: at every `Directory` the stored
keys are distinct, as Rust's `HashMap` guarantees. -/
inductive KeysOk : TreeNode → Prop where
  | file : KeysOk TreeNode.File
  | dir (ch : List (String × TreeNode)) : (ch.map Prod.fst).Nodup →
      (∀ kv ∈ ch, KeysOk kv.2) → KeysOk (TreeNode.Directory ch)

theorem getChild_mapInsert_self (m : List (String × TreeNode)) (k : String) (v : TreeNode) :
    getChild (mapInsert m k v) k = some v := by
  induction m with
  | nil => simp [mapInsert, getChild]
  | cons hd tl ih =>
    obtain ⟨k0, v0⟩ := hd
    by_cases hk : k0 = k
    · simp [mapInsert, hk, getChild]
    · simp [mapInsert, hk, getChild, ih]

theorem getChild_mapInsert_ne (m : List (String × TreeNode)) (k k' : String) (v : TreeNode)
    (h : k ≠ k') : getChild (mapInsert m k v) k' = getChild m k' := by
  induction m with
  | nil => simp [mapInsert, getChild, h]
  | cons hd tl ih =>
    obtain ⟨k0, v0⟩ := hd
    by_cases hk : k0 = k
    · subst hk
      simp [mapInsert, getChild, h]
    · simp only [mapInsert, if_neg hk, getChild]
      by_cases hk' : k0 = k'
      · simp [hk']
      · simp [hk', ih]

theorem mapInsert_self {m : List (String × TreeNode)} {k : String} {v : TreeNode}
    (h : getChild m k = some v) : mapInsert m k v = m := by
  induction m with
  | nil => simp [getChild] at h
  | cons hd tl ih =>
    obtain ⟨k0, v0⟩ := hd
    by_cases hk : k0 = k
    · subst hk
      simp [getChild] at h
      subst h
      simp [mapInsert]
    · simp only [getChild, if_neg hk] at h
      simp [mapInsert, hk, ih h]

theorem mapInsert_idem (m : List (String × TreeNode)) (k : String) (v : TreeNode) :
    mapInsert (mapInsert m k v) k v = mapInsert m k v :=
  mapInsert_self (getChild_mapInsert_self m k v)

theorem insert_path_nil (t : TreeNode) : insert_path t [] = t := by
  cases t <;> rfl

theorem insert_path_idem : ∀ (p : List String) (t : TreeNode),
    insert_path (insert_path t p) p = insert_path t p := by
  intro p
  induction p with
  | nil => intro t; rw [insert_path_nil, insert_path_nil]
  | cons c p' ih =>
    intro t
    cases t with
    | File => rfl
    | Directory ch =>
      cases p' with
      | nil =>
        simp [insert_path, mapInsert_idem]
      | cons c2 rest =>
        simp only [insert_path, getChild_mapInsert_self, Option.getD_some]
        rw [ih, mapInsert_idem]

theorem insert_path_isDir (ch : List (String × TreeNode)) (p : List String) :
    ∃ ch', insert_path (TreeNode.Directory ch) p = TreeNode.Directory ch' := by
  cases p with
  | nil => exact ⟨ch, rfl⟩
  | cons c p' =>
    cases p' with
    | nil => exact ⟨mapInsert ch c TreeNode.File, rfl⟩
    | cons c2 rest =>
      exact ⟨mapInsert ch c
        (insert_path ((getChild ch c).getD (TreeNode.Directory [])) (c2 :: rest)), rfl⟩

theorem lookupNode_file_eq {q : List String} (h : lookupNode TreeNode.File q = some TreeNode.File) :
    q = [] := by
  cases q with
  | nil => rfl
  | cons c qs => simp [lookupNode] at h

theorem lookupNode_dir_nil (ch : List (String × TreeNode)) :
    lookupNode (TreeNode.Directory ch) [] = some (TreeNode.Directory ch) := rfl

theorem lookupNode_dir_cons (ch : List (String × TreeNode)) (c : String) (rest : List String) :
    lookupNode (TreeNode.Directory ch) (c :: rest) =
      match getChild ch c with
      | some t => lookupNode t rest
      | none => none := rfl

theorem insert_lookup_self : ∀ (p : List String), ∀ (ch : List (String × TreeNode)),
    p ≠ [] →
    (∀ r, r <+: p → r ≠ p → lookupNode (TreeNode.Directory ch) r ≠ some TreeNode.File) →
    lookupNode (insert_path (TreeNode.Directory ch) p) p = some TreeNode.File := by
  intro p
  induction p with
  | nil => intro ch hne _; exact absurd rfl hne
  | cons c p' ih =>
    intro ch _ hblock
    cases p' with
    | nil =>
      simp [insert_path, lookupNode_dir_cons, getChild_mapInsert_self, lookupNode]
    | cons c2 rest =>
      have hchild : ∃ ch0, (getChild ch c).getD (TreeNode.Directory []) = TreeNode.Directory ch0 := by
        rcases hg : getChild ch c with _ | v
        · exact ⟨[], rfl⟩
        · cases v with
          | File =>
            exfalso
            apply hblock [c]
            · exact ⟨c2 :: rest, rfl⟩
            · simp
            · simp [lookupNode_dir_cons, hg, lookupNode]
          | Directory ch0 => exact ⟨ch0, rfl⟩
      obtain ⟨ch0, hch0⟩ := hchild
      have hstep : insert_path (TreeNode.Directory ch) (c :: c2 :: rest) =
          TreeNode.Directory (mapInsert ch c (insert_path (TreeNode.Directory ch0) (c2 :: rest))) := by
        simp only [insert_path]
        rw [hch0]
      rw [hstep, lookupNode_dir_cons, getChild_mapInsert_self]
      apply ih ch0 (by simp)
      intro r hpre hrne
      rcases hg : getChild ch c with _ | v
      · rw [hg] at hch0
        simp only [Option.getD_none] at hch0
        cases hch0
        cases r with
        | nil => simp [lookupNode_dir_nil]
        | cons d ds => simp [lookupNode_dir_cons, getChild]
      · rw [hg] at hch0
        simp only [Option.getD_some] at hch0
        subst hch0
        intro hcontra
        apply hblock (c :: r)
        · obtain ⟨tail, htail⟩ := hpre
          exact ⟨tail, by simp [htail]⟩
        · intro hceq
          apply hrne
          exact (List.cons.injEq _ _ _ _ ▸ hceq).2
        · simp [lookupNode_dir_cons, hg, hcontra]

theorem insert_preserves_file : ∀ (p : List String), ∀ (t : TreeNode), ∀ (q : List String),
    lookupNode t q = some TreeNode.File →
    (p <+: q → p = q) →
    lookupNode (insert_path t p) q = some TreeNode.File := by
  intro p
  induction p with
  | nil => intro t q hq _; rw [insert_path_nil]; exact hq
  | cons c p' ih =>
    intro t q hq hpre
    cases t with
    | File =>
      have hq0 := lookupNode_file_eq hq
      subst hq0
      simp [insert_path, lookupNode]
    | Directory ch =>
      cases q with
      | nil => simp [lookupNode_dir_nil] at hq
      | cons d qs =>
        rw [lookupNode_dir_cons] at hq
        rcases hg : getChild ch d with _ | child0
        · rw [hg] at hq; simp at hq
        · rw [hg] at hq
          cases p' with
          | nil =>
            by_cases hdc : c = d
            · subst hdc
              have : [c] = c :: qs := hpre ⟨qs, rfl⟩
              have hqs : qs = [] := by
                simpa using this.symm
              subst hqs
              simp [insert_path, lookupNode_dir_cons, getChild_mapInsert_self, lookupNode]
            · simp only [insert_path, lookupNode_dir_cons]
              rw [getChild_mapInsert_ne ch c d TreeNode.File hdc, hg, hq]
          | cons c2 rest =>
            by_cases hdc : c = d
            · subst hdc
              simp only [insert_path, lookupNode_dir_cons, hg, Option.getD_some]
              rw [getChild_mapInsert_self]
              apply ih child0 qs hq
              intro hp'
              have hkey : c :: c2 :: rest = c :: qs → c2 :: rest = qs := fun h => by
                simpa using h
              apply hkey
              apply hpre
              obtain ⟨tail, htail⟩ := hp'
              exact ⟨tail, by simp [htail]⟩
            · simp only [insert_path, lookupNode_dir_cons]
              rw [getChild_mapInsert_ne _ c d _ hdc, hg, hq]

theorem insert_file_from : ∀ (p : List String), ∀ (t : TreeNode), ∀ (r : List String),
    lookupNode (insert_path t p) r = some TreeNode.File →
    lookupNode t r = some TreeNode.File ∨ r = p := by
  intro p
  induction p with
  | nil => intro t r h; rw [insert_path_nil] at h; exact Or.inl h
  | cons c p' ih =>
    intro t r h
    cases t with
    | File =>
      left
      simpa [insert_path] using h
    | Directory ch =>
      cases r with
      | nil =>
        obtain ⟨ch', hch'⟩ := insert_path_isDir ch (c :: p')
        rw [hch'] at h
        simp [lookupNode_dir_nil] at h
      | cons d rs =>
        cases p' with
        | nil =>
          by_cases hdc : c = d
          · subst hdc
            simp only [insert_path, lookupNode_dir_cons, getChild_mapInsert_self] at h
            have hrs := lookupNode_file_eq h
            subst hrs
            exact Or.inr rfl
          · simp only [insert_path, lookupNode_dir_cons] at h
            rw [getChild_mapInsert_ne ch c d TreeNode.File hdc] at h
            left
            rw [lookupNode_dir_cons]
            exact h
        | cons c2 rest =>
          by_cases hdc : c = d
          · subst hdc
            simp only [insert_path, lookupNode_dir_cons, getChild_mapInsert_self] at h
            rcases ih _ _ h with hleft | hright
            · rcases hg : getChild ch c with _ | child0
              · rw [hg] at hleft
                simp only [Option.getD_none] at hleft
                cases rs with
                | nil => simp [lookupNode_dir_nil] at hleft
                | cons e es => simp [lookupNode_dir_cons, getChild] at hleft
              · rw [hg] at hleft
                simp only [Option.getD_some] at hleft
                left
                rw [lookupNode_dir_cons, hg]
                exact hleft
            · right
              rw [hright]
          · simp only [insert_path, lookupNode_dir_cons] at h
            rw [getChild_mapInsert_ne _ c d _ hdc] at h
            left
            rw [lookupNode_dir_cons]
            exact h

theorem fold_preserves_file : ∀ (l : List (List String)) (t : TreeNode) (q : List String),
    lookupNode t q = some TreeNode.File →
    (∀ p ∈ l, p <+: q → p = q) →
    lookupNode (l.foldl insert_path t) q = some TreeNode.File := by
  intro l
  induction l with
  | nil => intro t q hq _; exact hq
  | cons p0 rest ih =>
    intro t q hq hpf
    rw [List.foldl_cons]
    apply ih
    · exact insert_preserves_file p0 t q hq (hpf p0 (List.mem_cons_self _ _))
    · intro p hp
      exact hpf p (List.mem_cons_of_mem _ hp)

theorem fold_file_from : ∀ (l : List (List String)) (t : TreeNode) (r : List String),
    lookupNode (l.foldl insert_path t) r = some TreeNode.File →
    lookupNode t r = some TreeNode.File ∨ r ∈ l := by
  intro l
  induction l with
  | nil => intro t r h; exact Or.inl h
  | cons p0 rest ih =>
    intro t r h
    rw [List.foldl_cons] at h
    rcases ih _ _ h with hmid | hmem
    · rcases insert_file_from p0 t r hmid with hleft | hr
      · exact Or.inl hleft
      · exact Or.inr (hr ▸ List.mem_cons_self _ _)
    · exact Or.inr (List.mem_cons_of_mem _ hmem)

theorem fold_insert_all : ∀ (l : List (List String)) (ch : List (String × TreeNode)),
    (∀ p ∈ l, p ≠ []) →
    (∀ p ∈ l, ∀ r, r <+: p → r ≠ p →
      lookupNode (TreeNode.Directory ch) r ≠ some TreeNode.File) →
    (∀ p ∈ l, ∀ q ∈ l, p <+: q → p = q) →
    ∀ p ∈ l, lookupNode (l.foldl insert_path (TreeNode.Directory ch)) p = some TreeNode.File := by
  intro l
  induction l with
  | nil => intro ch _ _ _ p hp; simp at hp
  | cons p0 rest ih =>
    intro ch hne hblock hpf p hp
    rw [List.foldl_cons]
    rcases List.mem_cons.mp hp with hp0 | hprest
    · subst hp0
      apply fold_preserves_file
      · exact insert_lookup_self p ch (hne p hp) (hblock p hp)
      · intro q hq
        exact hpf q (List.mem_cons_of_mem _ hq) p hp
    · obtain ⟨ch1, hch1⟩ := insert_path_isDir ch p0
      rw [hch1]
      apply ih ch1
      · intro q hq; exact hne q (List.mem_cons_of_mem _ hq)
      · intro q hq r hrq hrne hcontra
        rw [← hch1] at hcontra
        rcases insert_file_from p0 (TreeNode.Directory ch) r hcontra with hleft | hr
        · exact hblock q (List.mem_cons_of_mem _ hq) r hrq hrne hleft
        · subst hr
          have : r = q := hpf r (List.mem_cons_self _ _) q (List.mem_cons_of_mem _ hq) hrq
          exact hrne this
      · intro a ha b hb
        exact hpf a (List.mem_cons_of_mem _ ha) b (List.mem_cons_of_mem _ hb)
      · exact hprest

theorem buildTreeSegs_file (l : List (List String))
    (hne : ∀ p ∈ l, p ≠ [])
    (hpf : ∀ p ∈ l, ∀ q ∈ l, p <+: q → p = q) :
    ∀ p ∈ l, lookupNode (buildTreeSegs l) p = some TreeNode.File := by
  apply fold_insert_all l [] hne _ hpf
  intro p _ r _ _
  cases r with
  | nil => simp [lookupNode_dir_nil]
  | cons d ds => simp [lookupNode_dir_cons, getChild]

theorem insert_below_file_noop : ∀ (q : List String), ∀ (t : TreeNode), ∀ (p : List String),
    lookupNode t q = some TreeNode.File → q ≠ [] → q <+: p → q ≠ p →
    insert_path t p = t := by
  intro q
  induction q with
  | nil => intro t p _ hne _ _; exact absurd rfl hne
  | cons c qs ih =>
    intro t p hq _ hqp hqnep
    cases t with
    | File => simp [lookupNode] at hq
    | Directory ch =>
      rw [lookupNode_dir_cons] at hq
      rcases hg : getChild ch c with _ | child0
      · rw [hg] at hq; simp at hq
      · rw [hg] at hq
        obtain ⟨tail, htail⟩ := hqp
        have hp : p = c :: (qs ++ tail) := by
          rw [← htail]; simp
        have htailne : tail ≠ [] := by
          intro hT
          apply hqnep
          rw [← htail, hT]
          simp
        cases hps : qs ++ tail with
        | nil =>
          rcases List.append_eq_nil.mp hps with ⟨_, hT⟩
          exact absurd hT htailne
        | cons c2 rest2 =>
          rw [hp, hps]
          simp only [insert_path, hg, Option.getD_some]
          have hsub : insert_path child0 (c2 :: rest2) = child0 := by
            cases qs with
            | nil =>
              have hfile : child0 = TreeNode.File := by
                simpa [lookupNode] using hq
              subst hfile
              rfl
            | cons d ds =>
              apply ih child0 (c2 :: rest2) hq (by simp)
              · rw [← hps]; exact ⟨tail, rfl⟩
              · rw [← hps]
                intro hcontra
                have hlen := congrArg List.length hcontra
                rw [List.length_append] at hlen
                have hzero : tail.length = 0 := by omega
                exact htailne (List.length_eq_zero.mp hzero)
          rw [hsub, mapInsert_self hg]

theorem getChild_mem : ∀ {ch : List (String × TreeNode)} {k : String} {v : TreeNode},
    getChild ch k = some v → (k, v) ∈ ch := by
  intro ch
  induction ch with
  | nil => intro k v h; simp [getChild] at h
  | cons hd tl ih =>
    intro k v h
    obtain ⟨k0, v0⟩ := hd
    by_cases hk : k0 = k
    · subst hk
      simp [getChild] at h
      subst h
      exact List.mem_cons_self _ _
    · simp only [getChild, if_neg hk] at h
      exact List.mem_cons_of_mem _ (ih h)

theorem getChild_eq_none_iff (ch : List (String × TreeNode)) (k : String) :
    getChild ch k = none ↔ k ∉ ch.map Prod.fst := by
  induction ch with
  | nil => simp [getChild]
  | cons hd tl ih =>
    obtain ⟨k0, v0⟩ := hd
    by_cases hk : k0 = k
    · subst hk
      simp [getChild]
    · simp [getChild, hk, ih, Ne.symm hk]

theorem getChild_of_mem : ∀ {ch : List (String × TreeNode)} {k : String} {v : TreeNode},
    (ch.map Prod.fst).Nodup → (k, v) ∈ ch → getChild ch k = some v := by
  intro ch
  induction ch with
  | nil => intro k v _ h; simp at h
  | cons hd tl ih =>
    intro k v hnd hmem
    obtain ⟨k0, v0⟩ := hd
    rw [List.map_cons, List.nodup_cons] at hnd
    rcases List.mem_cons.mp hmem with heq | htl
    · obtain ⟨hk, hv⟩ := Prod.mk.injEq _ _ _ _ ▸ heq
      subst hk
      subst hv
      simp [getChild]
    · by_cases hk : k0 = k
      · subst hk
        exfalso
        apply hnd.1
        exact List.mem_map.mpr ⟨(k0, v), htl, rfl⟩
      · simp only [getChild, if_neg hk]
        exact ih hnd.2 htl

theorem getChild_perm_eq {ch ch' : List (String × TreeNode)}
    (hnd : (ch.map Prod.fst).Nodup) (hperm : ch.Perm ch') (k : String) :
    getChild ch k = getChild ch' k := by
  have hnd' : (ch'.map Prod.fst).Nodup := ((hperm.map Prod.fst).nodup_iff).mp hnd
  rcases h : getChild ch k with _ | v
  · rw [getChild_eq_none_iff] at h
    symm
    rw [getChild_eq_none_iff]
    intro hmem
    exact h (((hperm.map Prod.fst).mem_iff).mpr hmem)
  · have hmem : (k, v) ∈ ch' := hperm.mem_iff.mp (getChild_mem h)
    exact (getChild_of_mem hnd' hmem).symm

theorem renderNames_ext {ch ch' : List (String × TreeNode)}
    (h : ∀ k, getChild ch k = getChild ch' k) :
    ∀ (names : List String) (pfx : String), renderNames ch names pfx = renderNames ch' names pfx := by
  intro names
  induction names with
  | nil => intro pfx; rw [renderNames, renderNames]
  | cons name rest ih =>
    intro pfx
    rw [renderNames]
    conv_rhs => rw [renderNames]
    rw [h name, ih]


instance : IsTotal (String × TreeNode) (fun a b => a.1 ≤ b.1) :=
  ⟨fun a b => le_total a.1 b.1⟩

instance : IsTrans (String × TreeNode) (fun a b => a.1 ≤ b.1) :=
  ⟨fun _ _ _ h1 h2 => le_trans h1 h2⟩

theorem sortPairs_map_fst (ch : List (String × TreeNode)) :
    (List.insertionSort (fun a b : String × TreeNode => a.1 ≤ b.1) ch).map Prod.fst =
      List.insertionSort (· ≤ ·) (ch.map Prod.fst) := by
  have hperm :
      ((List.insertionSort (fun a b : String × TreeNode => a.1 ≤ b.1) ch).map Prod.fst).Perm
        (List.insertionSort (· ≤ ·) (ch.map Prod.fst)) :=
    ((List.perm_insertionSort (fun a b : String × TreeNode => a.1 ≤ b.1) ch).map Prod.fst).trans
      (List.perm_insertionSort (· ≤ ·) (ch.map Prod.fst)).symm
  have hs1 : List.Sorted (· ≤ ·)
      ((List.insertionSort (fun a b : String × TreeNode => a.1 ≤ b.1) ch).map Prod.fst) :=
    (List.sorted_insertionSort (fun a b : String × TreeNode => a.1 ≤ b.1) ch).map Prod.fst
      (fun _ _ h => h)
  exact List.eq_of_perm_of_sorted hperm hs1
    (List.sorted_insertionSort (· ≤ ·) (ch.map Prod.fst))

theorem renderSpec_file (pfx : String) : renderSpec TreeNode.File pfx = "" := by
  rw [renderSpec]

theorem renderChild_some_file (pfx2 : String) :
    renderChild (some TreeNode.File) pfx2 = "" := by
  rw [renderChild]
  intro chc h
  simp at h

theorem renderChild_some_dir (chc : List (String × TreeNode)) (pfx2 : String) :
    renderChild (some (TreeNode.Directory chc)) pfx2 =
      build_tree_string (TreeNode.Directory chc) pfx2 := by
  rw [renderChild]

theorem renderNames_spec_bridge : ∀ (l : List (String × TreeNode))
    (ch : List (String × TreeNode)) (pfx : String),
    (∀ kv ∈ l, getChild ch kv.1 = some kv.2) →
    (∀ kv ∈ l, ∀ pfx2 : String, build_tree_string kv.2 pfx2 = renderSpec kv.2 pfx2) →
    renderNames ch (l.map Prod.fst) pfx = renderSpecList l pfx := by
  intro l
  induction l with
  | nil => intro ch pfx _ _; rw [List.map_nil, renderNames, renderSpecList]
  | cons x tl ih =>
    intro ch pfx hget hrec
    obtain ⟨name, child⟩ := x
    have hg : getChild ch name = some child := hget _ (List.mem_cons_self _ _)
    have hchild : ∀ pfx2 : String, renderChild (some child) pfx2 = renderSpec child pfx2 := by
      intro pfx2
      cases child with
      | File => rw [renderChild_some_file, renderSpec_file]
      | Directory chc =>
        rw [renderChild_some_dir]
        exact hrec _ (List.mem_cons_self _ _) pfx2
    cases tl with
    | nil =>
      rw [List.map_cons, List.map_nil]
      simp only [renderNames, List.isEmpty_nil, if_true, hg, hchild]
      rw [renderSpecList]
      simp [String.append_empty]
    | cons y tl2 =>
      have hrest := ih ch pfx (fun kv hkv => hget kv (List.mem_cons_of_mem _ hkv))
        (fun kv hkv => hrec kv (List.mem_cons_of_mem _ hkv))
      have hlast : (List.map Prod.fst (y :: tl2)).isEmpty = false := by simp
      rw [List.map_cons]
      simp only [renderNames, hlast, if_false, Bool.false_eq_true, hg, hchild]
      rw [hrest, renderSpecList]

theorem sizeOf_snd_of_mem {ch : List (String × TreeNode)} {kv : String × TreeNode}
    (h : kv ∈ ch) : sizeOf kv.2 < sizeOf (TreeNode.Directory ch) := by
  have h1 := List.sizeOf_lt_of_mem h
  obtain ⟨k, v⟩ := kv
  simp only [Prod.mk.sizeOf_spec] at h1
  simp only [TreeNode.Directory.sizeOf_spec]
  omega

theorem build_eq_renderSpec_bounded : ∀ (n : Nat) (t : TreeNode), sizeOf t ≤ n → KeysOk t →
    ∀ pfx : String, build_tree_string t pfx = renderSpec t pfx := by
  intro n
  induction n using Nat.strong_induction_on with
  | _ n ihn =>
    intro t hsize hk pfx
    cases t with
    | File => rw [build_tree_string, renderSpec]
    | Directory ch =>
      cases hk with
      | dir _ hnd hsub =>
        rw [build_tree_string, renderSpec, ← sortPairs_map_fst ch]
        apply renderNames_spec_bridge
        · intro kv hkv
          have hkvch : kv ∈ ch :=
            ((List.perm_insertionSort (fun a b : String × TreeNode => a.1 ≤ b.1) ch).mem_iff).mp hkv
          obtain ⟨k, v⟩ := kv
          exact getChild_of_mem hnd hkvch
        · intro kv hkv pfx2
          have hkvch : kv ∈ ch :=
            ((List.perm_insertionSort (fun a b : String × TreeNode => a.1 ≤ b.1) ch).mem_iff).mp hkv
          have hlt : sizeOf kv.2 < sizeOf (TreeNode.Directory ch) := sizeOf_snd_of_mem hkvch
          exact ihn (sizeOf kv.2) (lt_of_lt_of_le hlt hsize) kv.2 le_rfl (hsub kv hkvch) pfx2

theorem build_tree_string_eq_renderSpec (t : TreeNode) (hk : KeysOk t) (pfx : String) :
    build_tree_string t pfx = renderSpec t pfx :=
  build_eq_renderSpec_bounded (sizeOf t) t le_rfl hk pfx

theorem build_tree_string_perm {ch ch' : List (String × TreeNode)}
    (hnd : (ch.map Prod.fst).Nodup) (hperm : ch.Perm ch') (pfx : String) :
    build_tree_string (TreeNode.Directory ch) pfx =
      build_tree_string (TreeNode.Directory ch') pfx := by
  rw [build_tree_string, build_tree_string]
  have hkeys : List.insertionSort (· ≤ ·) (ch.map Prod.fst) =
      List.insertionSort (· ≤ ·) (ch'.map Prod.fst) := by
    apply List.eq_of_perm_of_sorted (r := (· ≤ · : String → String → Prop))
    · exact (List.perm_insertionSort (· ≤ ·) (ch.map Prod.fst)).trans
        ((hperm.map Prod.fst).trans
          (List.perm_insertionSort (· ≤ ·) (ch'.map Prod.fst)).symm)
    · exact List.sorted_insertionSort (· ≤ ·) (ch.map Prod.fst)
    · exact List.sorted_insertionSort (· ≤ ·) (ch'.map Prod.fst)
  rw [hkeys]
  exact renderNames_ext (getChild_perm_eq hnd hperm) _ pfx

theorem run_scanner_sorted (entries : List CandidateEntry) :
    List.Sorted pathLe (run_scanner entries) :=
  List.sorted_insertionSort pathLe _

theorem run_scanner_mem {entries : List CandidateEntry} {p : List String}
    (h : p ∈ run_scanner entries) :
    ∃ e ∈ entries, entryEmitted e = true ∧ e.path = p := by
  rw [run_scanner] at h
  have h1 := (List.perm_insertionSort pathLe _).mem_iff.mp h
  obtain ⟨e, hef, hep⟩ := List.mem_map.mp h1
  have he := List.mem_filter.mp hef
  exact ⟨e, he.1, he.2, hep⟩

theorem run_scanner_nodup {entries : List CandidateEntry}
    (hnd : (entries.map CandidateEntry.path).Nodup) :
    (run_scanner entries).Nodup := by
  rw [run_scanner]
  apply ((List.perm_insertionSort pathLe _).nodup_iff).mpr
  exact List.Nodup.sublist ((List.filter_sublist entries).map CandidateEntry.path) hnd

theorem join_six (a b c d e f : String) :
    String.join [a, b, c, d, e, f] = a ++ b ++ c ++ d ++ e ++ f := by
  simp [String.join, List.foldl, String.empty_append]

theorem entryEmitted_iff (e : CandidateEntry) :
    entryEmitted e = true ↔ e.ftype = some FType.file := by
  obtain ⟨p, ft⟩ := e
  cases ft with
  | none => simp [entryEmitted]
  | some f => cases f <;> simp [entryEmitted, FType.is_file]

/-- Read interface returning fixed text for every file; used to
instantiate the assembler theorems on concrete inputs. -/
def rfOkW : List String → Except String String := fun _ => Except.ok "x"

/-- Read interface failing on the file `b` and returning fixed text
elsewhere; used to instantiate the read-failure theorem. -/
def rfFailW : List String → Except String String := fun q =>
  if q = ["b"] then Except.error "gone" else Except.ok "x"

/-- C1 (counterexample): the list returned by `run_scanner` need not be
lexicographically sorted by full path string.  With the regular files
`a-b` and `a/c`, Rust's component-wise `PathBuf` sort returns
`[a/c, a-b]`, but by full path string `a-b` sorts before `a/c`
(`-` is byte 0x2D, `/` is byte 0x2F). -/
theorem C1_counterexample :
    ¬ sortedByFullString
      ((run_scanner
        [{ path := ["a-b"], ftype := some FType.file },
         { path := ["a", "c"], ftype := some FType.file }]).map displayPath) := by
  decide

/-- C1 (amended): for every scan whose emitted entries carry distinct
paths, the list returned by `run_scanner` is sorted by Rust's path
order (lexicographic over the component sequence, each component by its
bytes), every element is the path of a regular-file entry, no element is
the path of a directory entry, and the list is free of duplicates. -/
theorem C1_scanner_output (entries : List CandidateEntry)
    (hnd : (entries.map CandidateEntry.path).Nodup) :
    List.Sorted pathLe (run_scanner entries) ∧
    (∀ p ∈ run_scanner entries, ∃ e ∈ entries, e.ftype = some FType.file ∧ e.path = p) ∧
    (∀ p ∈ run_scanner entries, ¬ ∃ e ∈ entries, e.path = p ∧ e.ftype = some FType.dir) ∧
    (run_scanner entries).Nodup := by
  refine ⟨run_scanner_sorted entries, ?_, ?_, run_scanner_nodup hnd⟩
  · intro p hp
    obtain ⟨e, he, hemit, hep⟩ := run_scanner_mem hp
    exact ⟨e, he, (entryEmitted_iff e).mp hemit, hep⟩
  · intro p hp ⟨e', he', hep', hft'⟩
    obtain ⟨e, he, hemit, hep⟩ := run_scanner_mem hp
    have hfile := (entryEmitted_iff e).mp hemit
    have heq : e = e' :=
      List.inj_on_of_nodup_map hnd he he' (by rw [hep, hep'])
    rw [heq, hft'] at hfile
    simp at hfile

/-- C1 (witness): the amended theorem applied to a one-entry scan. -/
theorem C1_scanner_output_witness :
    (run_scanner [{ path := ["a"], ftype := some FType.file }]).Nodup :=
  (C1_scanner_output [{ path := ["a"], ftype := some FType.file }] (by decide)).2.2.2

/-- C2: no path lying beneath a `.git` directory component is ever in
the scan result, whatever the user rule chain answers — the override is
consulted first and cannot be negated by any rule layer. -/
theorem C2_vcs_never_included (userRule : List String → Option Bool)
    (fs : List CandidateEntry) (p : List String)
    (h : ".git" ∈ p.dropLast) :
    p ∉ scanWith userRule fs := by
  intro hmem
  obtain ⟨e, hefs, hemit, hep⟩ := run_scanner_mem hmem
  have he2 := List.mem_filter.mp hefs
  have haccept := he2.2
  rw [acceptEntry] at haccept
  by_cases h1 : e.ftype = some FType.dir ∧ ".git" ∈ e.path
  · rw [if_pos h1] at haccept
    simp at haccept
  · rw [if_neg h1] at haccept
    rw [hep] at haccept
    rw [if_pos h] at haccept
    simp at haccept

/-- C2 (witness): a `.git/config` file stays excluded even under a rule
chain that re-includes every path (`some false` = negation matched). -/
theorem C2_vcs_never_included_witness :
    [".git", "config"] ∉ scanWith (fun _ => some false)
      [{ path := [".git", "config"], ftype := some FType.file },
       { path := ["a"], ftype := some FType.file }] :=
  C2_vcs_never_included (fun _ => some false) _ [".git", "config"] (by decide)

/-- C3: for a path list with the FilteredPathList provenance invariant —
relative paths are non-empty and no path's relative form is a proper
prefix of another's (regular files cannot nest under regular files) —
every path in the list is found as exactly one `File` leaf by walking
its relative segments from the root of the built tree. -/
theorem C3_every_path_a_leaf (base : List String) (paths : List (List String))
    (hne : ∀ p ∈ paths, relComponents base p ≠ [])
    (hpf : ∀ p ∈ paths, ∀ q ∈ paths,
      relComponents base p <+: relComponents base q →
      relComponents base p = relComponents base q) :
    ∀ p ∈ paths, lookupNode (buildRoot base paths) (relComponents base p) =
      some TreeNode.File := by
  intro p hp
  have hb : buildRoot base paths = buildTreeSegs (paths.map (relComponents base)) := by
    rw [buildRoot, buildTreeSegs, List.foldl_map]
  rw [hb]
  apply buildTreeSegs_file
  · intro r hr
    obtain ⟨q, hq, hqr⟩ := List.mem_map.mp hr
    exact hqr ▸ hne q hq
  · intro r hr s hs hrs
    obtain ⟨q, hq, hqr⟩ := List.mem_map.mp hr
    obtain ⟨q', hq', hqs⟩ := List.mem_map.mp hs
    rw [← hqr, ← hqs] at hrs ⊢
    exact hpf q hq q' hq' hrs
  · exact List.mem_map.mpr ⟨p, hp, rfl⟩

/-- C3 (witness): the theorem applied to the scan of `root` containing
`root/a` and `root/b/c`. -/
theorem C3_every_path_a_leaf_witness :
    lookupNode (buildRoot ["root"] [["root", "a"], ["root", "b", "c"]])
      (relComponents ["root"] ["root", "a"]) = some TreeNode.File :=
  C3_every_path_a_leaf ["root"] [["root", "a"], ["root", "b", "c"]]
    (by decide) (by decide) ["root", "a"] (by decide)

/-- C8: inserting the same component path twice yields the same tree as
inserting it once, and inserting the empty segment sequence leaves any
tree unchanged. -/
theorem C8_insert_idempotent_and_empty_noop :
    (∀ (t : TreeNode) (p : List String), insert_path (insert_path t p) p = insert_path t p) ∧
    (∀ t : TreeNode, insert_path t [] = t) :=
  ⟨fun t p => insert_path_idem p t, insert_path_nil⟩

/-- C9: inserting a strict extension of a path that already ends in a
`File` leaf leaves the whole tree unchanged (the deeper segments are
dropped); inserting a path's final segment puts a `File` leaf there no
matter what child — including a whole `Directory` subtree — existed
under that name; consequently, for lists in which one path is a proper
prefix of another, whichever direction they are inserted, the longer
path is not a `File` leaf of the built tree. -/
theorem C9_prefix_shadowing :
    (∀ (q : List String) (t : TreeNode) (p : List String),
      lookupNode t q = some TreeNode.File → q ≠ [] → q <+: p → q ≠ p →
      insert_path t p = t) ∧
    (∀ (ch : List (String × TreeNode)) (c : String),
      lookupNode (insert_path (TreeNode.Directory ch) [c]) [c] = some TreeNode.File) ∧
    (lookupNode (buildTreeSegs [["a"], ["a", "b"]]) ["a", "b"] = none ∧
      lookupNode (buildTreeSegs [["a"], ["a", "b"]]) ["a"] = some TreeNode.File) ∧
    (lookupNode (buildTreeSegs [["a", "b"], ["a"]]) ["a", "b"] = none ∧
      lookupNode (buildTreeSegs [["a", "b"], ["a"]]) ["a"] = some TreeNode.File) := by
  refine ⟨insert_below_file_noop, ?_, ⟨rfl, rfl⟩, ⟨rfl, rfl⟩⟩
  intro ch c
  simp [insert_path, lookupNode_dir_cons, getChild_mapInsert_self, lookupNode]

/-- C9 (witness): the no-op clause applied to the tree holding the file
`a` and the deeper path `a/b`. -/
theorem C9_prefix_shadowing_witness :
    insert_path (TreeNode.Directory [("a", TreeNode.File)]) ["a", "b"] =
      TreeNode.Directory [("a", TreeNode.File)] :=
  C9_prefix_shadowing.1 ["a"] (TreeNode.Directory [("a", TreeNode.File)]) ["a", "b"]
    rfl (by decide) ⟨["b"], rfl⟩ (by decide)

theorem mapM_toStr_isSome : ∀ (l : List OsStr),
    (∀ c ∈ l, (OsStr.toStr c).isSome) → (l.mapM OsStr.toStr).isSome := by
  intro l
  induction l with
  | nil => intro _; rfl
  | cons c tl ih =>
    intro h
    have hc := h c (List.mem_cons_self _ _)
    rcases hcs : OsStr.toStr c with _ | s
    · rw [hcs] at hc; simp at hc
    · have htl := ih (fun d hd => h d (List.mem_cons_of_mem _ hd))
      rcases hts : tl.mapM OsStr.toStr with _ | ss
      · rw [hts] at htl; simp at htl
      · rw [List.mapM_cons, hcs, hts]
        rfl

theorem foldlM_insert_isSome : ∀ (base : List OsStr) (paths : List (List OsStr)) (t : TreeNode),
    (∀ p ∈ paths, ∀ c ∈ p, (OsStr.toStr c).isSome) →
    (paths.foldlM (fun t p => do
      let relative_path := if base.isPrefixOf p then p.drop base.length else p
      let components ← relative_path.mapM OsStr.toStr
      pure (insert_path t components)) t).isSome := by
  intro base paths
  induction paths with
  | nil => intro t _; rfl
  | cons p tl ih =>
    intro t h
    rw [List.foldlM_cons]
    have hrel : ∀ c ∈ (if base.isPrefixOf p then p.drop base.length else p),
        (OsStr.toStr c).isSome := by
      intro c hc
      apply h p (List.mem_cons_self _ _)
      by_cases hb : base.isPrefixOf p
      · rw [if_pos hb] at hc
        exact List.drop_subset _ _ hc
      · rw [if_neg hb] at hc
        exact hc
    have hsome := mapM_toStr_isSome _ hrel
    rcases hm : (if base.isPrefixOf p then p.drop base.length else p).mapM OsStr.toStr
      with _ | comps
    · rw [hm] at hsome; simp at hsome
    · simp only [hm, Option.bind_eq_bind, Option.some_bind, Option.pure_def]
      exact ih _ (fun q hq => h q (List.mem_cons_of_mem _ hq))

/-- C10: the component conversion of `generate_project_tree` is partial:
on a path holding a non-UTF-8 component the unchecked
`to_str().unwrap()` panics (modelled as `none`), while for every input
whose path components are all valid UTF-8 the conversion — and with it
the tree generation — succeeds. -/
theorem C10_generate_project_tree_partial :
    (generate_project_tree_os [] [[OsStr.raw [255]]] = none) ∧
    (∀ (base : List OsStr) (paths : List (List OsStr)),
      (∀ p ∈ paths, ∀ c ∈ p, (OsStr.toStr c).isSome) →
      (generate_project_tree_os base paths).isSome) := by
  constructor
  · rfl
  · intro base paths h
    rw [generate_project_tree_os]
    have hsome := foldlM_insert_isSome base paths (TreeNode.Directory []) h
    rcases hf : paths.foldlM (fun t p => do
      let relative_path := if base.isPrefixOf p then p.drop base.length else p
      let components ← relative_path.mapM OsStr.toStr
      pure (insert_path t components)) (TreeNode.Directory []) with _ | root
    · rw [hf] at hsome; simp at hsome
    · rw [hf]
      rfl

/-- C10 (witness): the success clause applied to the single all-UTF-8
path `a`. -/
theorem C10_generate_project_tree_partial_witness :
    (generate_project_tree_os [] [[OsStr.utf8 "a"]]).isSome :=
  C10_generate_project_tree_partial.2 [] [[OsStr.utf8 "a"]] (by
    intro p hp c hc
    simp only [List.mem_singleton] at hp
    subst hp
    simp only [List.mem_singleton] at hc
    subst hc
    rfl)

/-- C5: the renderer's output over a directory level does not depend on
the insertion (storage) order of the children — any permutation of a
duplicate-free child map renders identically; on every well-formed tree
the rendering coincides with the spec-side renderer, which lists
children sorted by name, emits `├── ` for every non-last and `└── ` for
the last child, and recurses with `│   ` under a non-last and `    `
under a last branch while `File` children do not recurse; and the output
of `generate_project_tree` begins with the literal root line `.`. -/
theorem C5_renderer_contract :
    (∀ (ch ch' : List (String × TreeNode)) (pfx : String),
      (ch.map Prod.fst).Nodup → ch.Perm ch' →
      build_tree_string (TreeNode.Directory ch) pfx =
        build_tree_string (TreeNode.Directory ch') pfx) ∧
    (∀ (t : TreeNode) (pfx : String), KeysOk t →
      build_tree_string t pfx = renderSpec t pfx) ∧
    (∀ (base : List String) (paths : List (List String)),
      ∃ rest, generate_project_tree base paths = ".\n" ++ rest) :=
  ⟨fun _ _ pfx hnd hperm => build_tree_string_perm hnd hperm pfx,
   fun t pfx hk => build_tree_string_eq_renderSpec t hk pfx,
   fun base paths => ⟨build_tree_string (buildRoot base paths) "", rfl⟩⟩

/-- C5 (witness): order independence on a two-child level and the
spec-renderer agreement on a leaf. -/
theorem C5_renderer_contract_witness :
    build_tree_string (TreeNode.Directory [("a", TreeNode.File), ("b", TreeNode.File)]) "" =
      build_tree_string (TreeNode.Directory [("b", TreeNode.File), ("a", TreeNode.File)]) "" ∧
    build_tree_string TreeNode.File "" = renderSpec TreeNode.File "" :=
  ⟨C5_renderer_contract.1 [("a", TreeNode.File), ("b", TreeNode.File)]
      [("b", TreeNode.File), ("a", TreeNode.File)] "" (by decide)
      (List.Perm.swap _ _ _),
   C5_renderer_contract.2.1 TreeNode.File "" KeysOk.file⟩

/-- C4: on every project name, root path, read interface and non-empty
path list, `generate_snapshot_content` produces exactly the document the
spec's assembler clause describes: title line, fixed summary sentence,
file count line, fenced tree diagram, `File Contents` section header,
then one fenced block per path in list order annotated
`{extension}:{relative-path}` with the extension empty when the file has
none. -/
theorem C4_snapshot_layout (project_name : String) (base_path : List String)
    (paths : List (List String)) (readFile : List String → Except String String)
    (hne : paths ≠ []) :
    generate_snapshot_content project_name base_path paths readFile =
      assembleSpec project_name base_path paths readFile := by
  simp only [generate_snapshot_content, assembleSpec]
  rw [join_six]
  have hmap : paths.map (fileBlock base_path readFile) = paths.map (fun p =>
      "```" ++ (((pathExtension p).getD "") ++ ":" ++ displayPath (relComponents base_path p)) ++
        "\n" ++
        (match readFile p with
         | Except.ok text => text
         | Except.error e => "Error reading file: " ++ e) ++ "\n```\n\n") := by
    apply List.map_congr_left
    intro p _
    simp [fileBlock, String.append_assoc]
  rw [hmap]

/-- C4 (witness): the layout theorem applied to a one-file project. -/
theorem C4_snapshot_layout_witness :
    generate_snapshot_content "p" [] [["a"]] rfOkW = assembleSpec "p" [] [["a"]] rfOkW :=
  C4_snapshot_layout "p" [] [["a"]] rfOkW (by decide)

/-- C6: a read failure on one file does not abort assembly: the
document keeps its intro and one block per path in list order, the
failing file's block body is the literal error message, and every other
file's block is the one its own read produces. -/
theorem C6_read_failure_isolated (project_name : String) (base_path : List String)
    (paths : List (List String)) (rf rf' : List String → Except String String)
    (p : List String) (e : String)
    (hfail : rf' p = Except.error e)
    (hagree : ∀ q, q ≠ p → rf' q = rf q) :
    generate_snapshot_content project_name base_path paths rf' =
      snapshotIntro project_name base_path paths ++
        String.join (paths.map (fun q =>
          if q = p then errorBlock base_path p e else fileBlock base_path rf q)) := by
  simp only [generate_snapshot_content, snapshotIntro]
  rw [join_six]
  have hmap : paths.map (fileBlock base_path rf') = paths.map (fun q =>
      if q = p then errorBlock base_path p e else fileBlock base_path rf q) := by
    apply List.map_congr_left
    intro q _
    by_cases hq : q = p
    · subst hq
      simp [fileBlock, errorBlock, hfail]
    · simp [hq, fileBlock, hagree q hq]
  rw [hmap]

/-- C6 (witness): of the two files `a` and `b`, reading `b` fails; the
document still holds both blocks, with the error text as `b`'s body. -/
theorem C6_read_failure_isolated_witness :
    generate_snapshot_content "p" [] [["a"], ["b"]] rfFailW =
      snapshotIntro "p" [] [["a"], ["b"]] ++
        String.join ([["a"], ["b"]].map (fun q =>
          if q = ["b"] then errorBlock [] ["b"] "gone" else fileBlock [] rfOkW q)) :=
  C6_read_failure_isolated "p" [] [["a"], ["b"]] rfOkW rfFailW ["b"] "gone"
    (by simp [rfFailW])
    (fun q hq => by simp [rfFailW, rfOkW, hq])

/-- C7: when the scan yields no paths, the pipeline reports the
"no files" status as a distinct outcome and no document is produced —
the assembler is never reached. -/
theorem C7_empty_scan_no_document (project_name : String) (base_path : List String)
    (entries : List CandidateEntry) (readFile : List String → Except String String)
    (h : run_scanner entries = []) :
    mainPipeline project_name base_path entries readFile =
      MainOutcome.noFiles "No files to include in the snapshot. Exiting." ∧
    ∀ doc, mainPipeline project_name base_path entries readFile ≠
      MainOutcome.produced doc := by
  have hmain : mainPipeline project_name base_path entries readFile =
      MainOutcome.noFiles "No files to include in the snapshot. Exiting." := by
    rw [mainPipeline, h]
    rfl
  exact ⟨hmain, fun doc hcontra => by rw [hmain] at hcontra; exact MainOutcome.noConfusion hcontra⟩

/-- C7 (witness): the empty filesystem scan reports "no files". -/
theorem C7_empty_scan_no_document_witness :
    mainPipeline "p" [] [] rfOkW =
      MainOutcome.noFiles "No files to include in the snapshot. Exiting." :=
  (C7_empty_scan_no_document "p" [] [] rfOkW rfl).1
